import Mathlib

/-!
Shallow embedding of the Boardie persistence layer (`BoardieDB`, the
database module handling local storage with a localStorage fallback),
together with proofs of the specified properties.

Modelling conventions:
* ISO-8601 timestamps are modelled as natural numbers (valid ISO strings
  compare chronologically exactly as their parsed time values do, and
  `new Date(a) - new Date(b)` is the numeric difference of those values).
  An absent or empty (falsy) timestamp field is modelled as `none`.
* A JavaScript promise that can reject is modelled as `Except DBErr _`:
  `Except.error` is rejection, `Except.ok` is resolution.
* The fallback (localStorage) backend state — the parsed JSON document
  `{posts, tags, settings}` — is the `Store` structure (settings omitted:
  no claim concerns them).  Each operation is a pure function from the
  store to the new store plus its promise outcome; the source writes the
  serialized blob back only at the end of the successful path, so a throw
  leaves the stored state untouched, which the `Except` encoding captures.
* `crypto.randomUUID()` and `new Date().toISOString()` are
  nondeterministic inputs of the environment; they are passed as explicit
  parameters (`freshId`, `now`).
-/

namespace Boardie

/-- A post record, as stored by `BoardieDB` (the `user_id` column injected
for the remote store is irrelevant to every claim and omitted). -/
structure Post where
  id : String
  url : String
  platform : String
  title : Option String := none
  description : Option String := none
  tags : List String := []
  dateAdded : Nat
  updatedAt : Nat
deriving DecidableEq, Repr

/-- A tag aggregate record, as stored in the tags collection. -/
structure Tag where
  name : String
  count : Nat
deriving DecidableEq, Repr

/-- The fallback-backend document: `{posts: [], tags: []}` (settings are
omitted, no claim concerns them). -/
structure Store where
  posts : List Post := []
  tags : List Tag := []
deriving DecidableEq, Repr

/-- The empty store, as seeded by `fallbackToLocalStorage`. -/
def emptyStore : Store := {}

/-- Caller-supplied input to `addPost`: `id` and `dateAdded` may be absent
(or empty, i.e. falsy), in which case `addPost` generates them. -/
structure PostInput where
  id : Option String := none
  url : String
  platform : String := "website"
  title : Option String := none
  description : Option String := none
  tags : List String := []
  dateAdded : Option Nat := none
deriving DecidableEq, Repr

/-- Error taxonomy of the write paths: `duplicateURL` is the
`'Post with this URL already exists'` throw, `notFound` the
`'Post not found'` throw, `storage` any backend-level failure. -/
inductive DBErr where
  | duplicateURL
  | notFound
  | storage
deriving DecidableEq, Repr

/-- The preprocessing block at the top of `addPost`: generate `id` when
falsy, default `dateAdded` to now, always stamp `updatedAt` with now. -/
def preparePost (input : PostInput) (freshId : String) (now : Nat) : Post :=
  { id := match input.id with
          | some s => if s = "" then freshId else s
          | none => freshId
    url := input.url
    platform := input.platform
    title := input.title
    description := input.description
    tags := input.tags
    dateAdded := input.dateAdded.getD now
    updatedAt := now }

/-- Increment the count of the first tag record named `n`, or append a
fresh `{name: n, count: 1}` record — the `findIndex`/`push` update in the
fallback branch of `addPost` and `updatePost`. -/
def incTag : List Tag → String → List Tag
  | [], n => [⟨n, 1⟩]
  | t :: rest, n =>
      if t.name == n then ⟨t.name, t.count + 1⟩ :: rest
      else t :: incTag rest n

/-- Fold `incTag` over a list of tag names. -/
def incTags (tags : List Tag) (names : List String) : List Tag :=
  names.foldl incTag tags

/-- Decrement the count of the first tag record named `n`
(`Math.max(0, count - 1)`), deleting the record when the count reaches
zero; a missing record is left alone — the decrement loops of
`updatePost` and `deletePost`. -/
def decTag : List Tag → String → List Tag
  | [], _ => []
  | t :: rest, n =>
      if t.name == n then
        if t.count - 1 = 0 then rest else ⟨t.name, t.count - 1⟩ :: rest
      else t :: decTag rest n

/-- Fold `decTag` over a list of tag names. -/
def decTags (tags : List Tag) (names : List String) : List Tag :=
  names.foldl decTag tags

/-- Replace the first post whose `id` matches `p.id` by `p` — the
`findIndex` + `data.posts[index] = post` assignment in `updatePost`. -/
def replaceFirstPost : List Post → Post → List Post
  | [], _ => []
  | q :: rest, p =>
      if q.id == p.id then p :: rest else q :: replaceFirstPost rest p

/-- Remove the first post whose `id` matches — the `findIndex` +
`splice(index, 1)` in `deletePost`. -/
def removeFirstPost : List Post → String → List Post
  | [], _ => []
  | q :: rest, i =>
      if q.id == i then rest else q :: removeFirstPost rest i

/-- The fallback branch of `getPostById`:
`data.posts.find(post => post.id === id) || null`. -/
def getPostByIdFB (s : Store) (id : String) : Option Post :=
  s.posts.find? (fun p => p.id == id)

/-- The public `addPost` on the fallback backend: preprocess the input,
reject on a duplicate `url`, otherwise append the post and bump every tag
count.  The outer catch rethrows, so errors reach the caller. -/
def addPost (s : Store) (input : PostInput) (freshId : String) (now : Nat) :
    Except DBErr (Post × Store) :=
  let p := preparePost input freshId now
  if s.posts.any (fun q => q.url == p.url) then
    .error .duplicateURL
  else
    .ok (p, { posts := s.posts ++ [p], tags := incTags s.tags p.tags })

/-- The public `updatePost` on the fallback backend: stamp `updatedAt`,
require the post to exist, store the argument wholesale, and adjust tag
counts by the diff of the old and new tag lists.  The outer catch
rethrows, so errors reach the caller. -/
def updatePost (s : Store) (post : Post) (now : Nat) :
    Except DBErr (Post × Store) :=
  let p := { post with updatedAt := now }
  match s.posts.find? (fun q => q.id == p.id) with
  | none => .error .notFound
  | some existing =>
      let tagsToAdd := p.tags.filter (fun t => !(existing.tags.contains t))
      let tagsToRemove := existing.tags.filter (fun t => !(p.tags.contains t))
      .ok (p, { posts := replaceFirstPost s.posts p
                tags := decTags (incTags s.tags tagsToAdd) tagsToRemove })

/-- The body of `deletePost` up to its catch: require the post to exist,
remove it, and decrement every tag it held. -/
def deletePostCore (s : Store) (id : String) : Except DBErr (Bool × Store) :=
  match s.posts.find? (fun q => q.id == id) with
  | none => .error .notFound
  | some post =>
      .ok (true, { posts := removeFirstPost s.posts id
                   tags := decTags s.tags post.tags })

/-- The public `deletePost`: its own catch block swallows every error
(including the `'Post not found'` throw) and resolves `false`, leaving
the store untouched. -/
def deletePost (s : Store) (id : String) : Except DBErr (Bool × Store) :=
  match deletePostCore s id with
  | .error _ => .ok (false, s)
  | .ok r => .ok r

/-- Options object of `getAllPosts`; an absent field is `none`. -/
structure QueryOptions where
  limit : Option Nat := none
  offset : Option Nat := none
  sortBy : Option String := none
  sortOrder : Option String := none
  filterTags : Option (List String) := none
  searchTerm : Option String := none
  platform : Option String := none
deriving DecidableEq, Repr

/-- Does `needle` occur at the head of `hay`? (helper for substring
matching). -/
def charsAtHead : List Char → List Char → Bool
  | [], _ => true
  | _ :: _, [] => false
  | c :: cs, d :: ds => c == d && charsAtHead cs ds

/-- Does `needle` occur contiguously anywhere in `hay`? -/
def charsContains (hay needle : List Char) : Bool :=
  match hay with
  | [] => needle.isEmpty
  | _ :: rest => charsAtHead needle hay || charsContains rest needle

/-- JavaScript `hay.includes(needle)` on strings. -/
def strContains (hay needle : String) : Bool :=
  charsContains hay.data needle.data

/-- The search predicate of `getAllPosts`: case-insensitive substring
match against url, title, description, or any tag (`term` is already
lowercased by the caller, as in the source). -/
def matchesSearch (term : String) (p : Post) : Bool :=
  strContains p.url.toLower term ||
  (match p.title with
   | some t => strContains t.toLower term
   | none => false) ||
  (match p.description with
   | some d => strContains d.toLower term
   | none => false) ||
  p.tags.any (fun tag => strContains tag.toLower term)

/-- The sort comparator of `getAllPosts` as a boolean `≤` relation:
`platform` sorts lexicographically, anything else by `dateAdded`; the
direction flips unless `sortOrder === 'asc'`. -/
def postLE (sortBy sortOrder : Option String) (a b : Post) : Bool :=
  if sortBy = some "platform" then
    if sortOrder = some "asc" then decide (a.platform ≤ b.platform)
    else decide (b.platform ≤ a.platform)
  else
    if sortOrder = some "asc" then decide (a.dateAdded ≤ b.dateAdded)
    else decide (b.dateAdded ≤ a.dateAdded)

/-- Insert `x` into an already-sorted list, after every element that
compares `≤ x` — so that the overall sort is stable. -/
def insertLE (le : Post → Post → Bool) (x : Post) : List Post → List Post
  | [] => [x]
  | y :: rest => if le y x then y :: insertLE le x rest else x :: y :: rest

/-- A stable sort.  JavaScript `Array.prototype.sort` is required to be
stable, and for a total preorder comparator a stable sort's output is
uniquely determined, so this models the source's `posts.sort(...)`. -/
def stableSort (le : Post → Post → Bool) (l : List Post) : List Post :=
  l.foldl (fun acc x => insertLE le x acc) []

/-- The filter + sort pipeline of `getAllPosts` (both backends run the
identical post-processing): tag filter (AND), platform filter, search
filter, then sort.  Pagination is applied separately. -/
def sortFilter (posts : List Post) (opts : QueryOptions) : List Post :=
  let posts := match opts.filterTags with
    | some ft => if ft.length > 0 then
        posts.filter (fun p => ft.all (fun t => p.tags.contains t))
      else posts
    | none => posts
  let posts := match opts.platform with
    | some pl => if pl != "" then posts.filter (fun p => p.platform == pl)
      else posts
    | none => posts
  let posts := match opts.searchTerm with
    | some st => if st != "" then posts.filter (matchesSearch st.toLower)
      else posts
    | none => posts
  stableSort (postLE opts.sortBy opts.sortOrder) posts

/-- The whole `getAllPosts` post-processing: filter, sort, then
`if (limit) posts = posts.slice(offset || 0, (offset || 0) + limit)` —
the slice runs only when `limit` is truthy (present and nonzero). -/
def processQuery (posts : List Post) (opts : QueryOptions) : List Post :=
  let sorted := sortFilter posts opts
  match opts.limit with
  | some l =>
      if l != 0 then (sorted.drop (opts.offset.getD 0)).take l else sorted
  | none => sorted

/-- `getAllPosts` on the fallback backend, given an already-parsed
store. -/
def getAllPostsFB (s : Store) (opts : QueryOptions) : List Post :=
  processQuery s.posts opts

/-- The promise outcome of `getAllPosts` on the fallback backend:
`raw` is the outcome of reading/parsing the stored document, and the
catch block converts any failure into a resolved `[]`. -/
def getAllPosts (raw : Except DBErr Store) (opts : QueryOptions) :
    Except DBErr (List Post) :=
  match raw with
  | .error _ => .ok []
  | .ok s => .ok (getAllPostsFB s opts)

/-- The promise outcome of `getAllPosts` on the indexed (IndexedDB)
backend: `backendRead` is the outcome of the `getAll` request.  The
`request.onerror` handler calls `reject` on the promise the operation
already returned, and the surrounding try/catch only intercepts
synchronous throws, so a failed read rejects the caller. -/
def getAllPostsIndexed (backendRead : Except DBErr (List Post))
    (opts : QueryOptions) : Except DBErr (List Post) :=
  match backendRead with
  | .error e => .error e
  | .ok posts => .ok (processQuery posts opts)

/-- The promise outcome of `getPostById` on the fallback backend: the
catch converts any read/parse failure into a resolved `null`. -/
def getPostById (raw : Except DBErr Store) (id : String) :
    Except DBErr (Option Post) :=
  match raw with
  | .error _ => .ok none
  | .ok s => .ok (getPostByIdFB s id)

/-- The promise outcome of `getPostById` on the indexed backend: as for
`getAllPostsIndexed`, a failed `get` request rejects the caller. -/
def getPostByIdIndexed (backendRead : Except DBErr (Option Post)) :
    Except DBErr (Option Post) :=
  match backendRead with
  | .error e => .error e
  | .ok r => .ok r

/-- View an already-stored post as `addPost` input, as when
`syncWithSupabase` feeds a fetched remote post to `addPost`: every field
is present (a stored record has truthy `id` and `dateAdded`). -/
def postToInput (p : Post) : PostInput :=
  { id := some p.id, url := p.url, platform := p.platform, title := p.title
    description := p.description, tags := p.tags
    dateAdded := some p.dateAdded }

/-- The local-reconciliation loop of `syncWithSupabase` (step over each
remote post): absent locally → `addPost(remotePost, false)`; present with
strictly newer remote `updatedAt` → `updatePost(remotePost, false)`;
otherwise skip.  `localSnap` is the `getAllPosts()` snapshot taken before
the loop.  A thrown error aborts the rest of the cycle (the surrounding
catch logs it); the `Bool` records whether the loop completed. -/
def mergeLoop (s : Store) (localSnap : List Post) (now : Nat) :
    List Post → Store × Bool
  | [] => (s, true)
  | rp :: rest =>
      match localSnap.find? (fun lp => lp.id == rp.id) with
      | none =>
          match addPost s (postToInput rp) "" now with
          | .error _ => (s, false)
          | .ok (_, s') => mergeLoop s' localSnap now rest
      | some lp =>
          if rp.updatedAt > lp.updatedAt then
            match updatePost s rp now with
            | .error _ => (s, false)
            | .ok (_, s') => mergeLoop s' localSnap now rest
          else mergeLoop s localSnap now rest

/-- Steps 2–4 of a `syncWithSupabase` cycle with an empty sync queue:
snapshot the local posts, merge every remote post into the local store,
then insert remotely every snapshot post with no remote counterpart
(those inserts check no error, so the push phase never aborts).  Returns
the new local store and the new remote post list. -/
def syncCycle (s : Store) (remote : List Post) (now : Nat) :
    Store × List Post :=
  let localSnap := getAllPostsFB s {}
  let merged := mergeLoop s localSnap now remote
  if merged.2 then
    (merged.1, remote ++
      localSnap.filter (fun lp => remote.all (fun rp => rp.id != lp.id)))
  else (merged.1, remote)

/-- A call deferred onto `pendingOperations` while the store is not yet
initialized, with its original arguments (`freshId` stands for the UUID
the environment will hand the re-invoked `addPost`). -/
inductive OpCall where
  | addCall (input : PostInput) (freshId : String)
  | updateCall (p : Post)
  | deleteCall (id : String)
  | getAllCall (opts : QueryOptions)
  | getByIdCall (id : String)
deriving DecidableEq, Repr

/-- The value a completed operation resolves with. -/
inductive OpResult where
  | postRes (p : Post)
  | postsRes (l : List Post)
  | foundRes (r : Option Post)
  | boolRes (b : Bool)
deriving DecidableEq, Repr

/-- Execute one operation against a ready store at time `now`:
the promise outcome plus the resulting store. -/
def runOp (s : Store) (now : Nat) : OpCall → Except DBErr (OpResult × Store)
  | .addCall input fid =>
      (addPost s input fid now).map (fun r => (.postRes r.1, r.2))
  | .updateCall p =>
      (updatePost s p now).map (fun r => (.postRes r.1, r.2))
  | .deleteCall id =>
      (deletePost s id).map (fun r => (.boolRes r.1, r.2))
  | .getAllCall opts => .ok (.postsRes (getAllPostsFB s opts), s)
  | .getByIdCall id => .ok (.foundRes (getPostByIdFB s id), s)

/-- One queued caller's fate after the synchronous pass of the drain
loop.  The fully-synchronous operations (the fallback `addPost`,
`getAllPosts`, `getPostById` bodies contain no `await`) complete inside
their closure call, so their caller's eventual outcome is already
`settled` (`none` when the operation rejected: the deferral wired only
`.then(resolve)`, so the future never settles).  `updatePost` and
`deletePost` suspend at `await this.getPostById(...)`: the suspension
point has already read the current post (the `await`ed call itself runs
synchronously), and the rest of the operation is a pending
continuation. -/
inductive DrainSlot where
  | settled (r : Option OpResult)
  | updateCont (p : Post) (existing : Option Post)
  | deleteCont (id : String) (found : Option Post)
deriving DecidableEq, Repr

/-- The synchronous pass of `processPendingOperations`: the while loop
shifts the queued closures off in FIFO order and calls each; every
closure's body runs up to its first `await` within this single task.
`addPost`/`getAllPosts`/`getPostById` run to completion (threading the
store); `updatePost`/`deletePost` execute only their prefix — stamping
nothing into the store yet, but capturing the `getPostById` read of the
current state — and leave a continuation. -/
def drainSync (s : Store) (now : Nat) : List OpCall → List DrainSlot × Store
  | [] => ([], s)
  | c :: rest =>
      match c with
      | .addCall input fid =>
          match addPost s input fid now with
          | .ok (p, s') =>
              let r := drainSync s' now rest
              (.settled (some (.postRes p)) :: r.1, r.2)
          | .error _ =>
              let r := drainSync s now rest
              (.settled none :: r.1, r.2)
      | .getAllCall opts =>
          let r := drainSync s now rest
          (.settled (some (.postsRes (getAllPostsFB s opts))) :: r.1, r.2)
      | .getByIdCall id =>
          let r := drainSync s now rest
          (.settled (some (.foundRes (getPostByIdFB s id))) :: r.1, r.2)
      | .updateCall p =>
          let r := drainSync s now rest
          (.updateCont p (getPostByIdFB s p.id) :: r.1, r.2)
      | .deleteCall id =>
          let r := drainSync s now rest
          (.deleteCont id (getPostByIdFB s id) :: r.1, r.2)

/-- The continuation of a suspended `updatePost`, resumed as a microtask
after the drain loop: the NotFound check and the tag diff use the
`existing` post read at suspension time, while the write re-reads the
store as it stands now.  A NotFound throw is rethrown by `updatePost`'s
catch, rejecting a promise whose only handler is `.then(resolve)` — the
caller's future never settles (`none`). -/
def updateContRun (s : Store) (p : Post) (existing : Option Post)
    (now : Nat) : Option OpResult × Store :=
  match existing with
  | none => (none, s)
  | some ex =>
      match s.posts.find? (fun q => q.id == p.id) with
      | none => (none, s)
      | some _ =>
          let p' := { p with updatedAt := now }
          (some (.postRes p'),
           { posts := replaceFirstPost s.posts p'
             tags := decTags (incTags s.tags
                 (p'.tags.filter (fun t => !(ex.tags.contains t))))
               (ex.tags.filter (fun t => !(p'.tags.contains t))) })

/-- The continuation of a suspended `deletePost`: the NotFound check and
the tag decrement use the post read at suspension time; the splice
re-reads the store.  `deletePost`'s own catch converts either NotFound
throw into a resolved `false`. -/
def deleteContRun (s : Store) (id : String) (found : Option Post) :
    Option OpResult × Store :=
  match found with
  | none => (some (.boolRes false), s)
  | some post =>
      match s.posts.find? (fun q => q.id == id) with
      | none => (some (.boolRes false), s)
      | some _ =>
          (some (.boolRes true),
           { posts := removeFirstPost s.posts id
             tags := decTags s.tags post.tags })

/-- The microtask pass: once the drain loop's task ends, the suspended
continuations resume in the order they were enqueued (the queue order of
their update/delete calls), each running to completion — the fallback
bodies contain no further `await`.  Settled slots pass through
untouched. -/
def runConts (s : Store) (now : Nat) :
    List DrainSlot → List (Option OpResult) × Store
  | [] => ([], s)
  | .settled r :: rest =>
      let rr := runConts s now rest
      (r :: rr.1, rr.2)
  | .updateCont p ex :: rest =>
      let rs := updateContRun s p ex now
      let rr := runConts rs.2 now rest
      (rs.1 :: rr.1, rr.2)
  | .deleteCont id f :: rest =>
      let rs := deleteContRun s id f
      let rr := runConts rs.2 now rest
      (rs.1 :: rr.1, rr.2)

/-- `processPendingOperations`, microtask-faithfully: the synchronous
pass runs every queued closure's body up to its first `await` in FIFO
order, then the suspended update/delete continuations resume in that
same order.  Returns each caller's eventual future outcome (queue order;
`none` = never settles) and the final store. -/
def drainPending (s : Store) (now : Nat) (q : List OpCall) :
    List (Option OpResult) × Store :=
  let phase1 := drainSync s now q
  runConts phase1.2 now phase1.1

/-- An operation whose fallback body contains no `await`, hence runs
atomically inside its queued closure call. -/
def syncCall : OpCall → Prop
  | .addCall _ _ => True
  | .getAllCall _ => True
  | .getByIdCall _ => True
  | .updateCall _ => False
  | .deleteCall _ => False

instance : DecidablePred syncCall := by
  intro c
  cases c <;> simp [syncCall] <;> infer_instance

/-- Modelled from the spec: the outcomes the queued callers would observe
had the store been ready, i.e. each operation executed sequentially in
invocation order, every caller's promise settling with its operation's
outcome (resolution or rejection).  Comparison point for the pre-ready
queuing claim. -/
def runSeqReady (s : Store) (now : Nat) :
    List OpCall → List (Except DBErr OpResult) × Store
  | [] => ([], s)
  | c :: rest =>
      match runOp s now c with
      | .ok (v, s') =>
          let r := runSeqReady s' now rest
          (.ok v :: r.1, r.2)
      | .error e =>
          let r := runSeqReady s now rest
          (.error e :: r.1, r.2)

/-- One mutation of the write API, with the environment inputs it
consumes. -/
inductive DBOp where
  | add (input : PostInput) (freshId : String) (now : Nat)
  | update (p : Post) (now : Nat)
  | delete (id : String)
deriving DecidableEq, Repr

/-- The store state after a mutation call, successful or not: a thrown
error leaves the stored document untouched (the fallback backend writes
the serialized blob only on the success path). -/
def applyOp (s : Store) : DBOp → Store
  | .add input fid now =>
      match addPost s input fid now with
      | .error _ => s
      | .ok (_, s') => s'
  | .update p now =>
      match updatePost s p now with
      | .error _ => s
      | .ok (_, s') => s'
  | .delete id =>
      match deletePost s id with
      | .error _ => s
      | .ok (_, s') => s'

/-- The store after a whole sequence of mutations. -/
def applyOps (s : Store) (ops : List DBOp) : Store :=
  ops.foldl applyOp s

/-- The data-model constraint on operation inputs: a post's `tags` list
holds no duplicates ("duplicates not allowed per post"). -/
def opTagsNodup : DBOp → Prop
  | .add input _ _ => input.tags.Nodup
  | .update p _ => p.tags.Nodup
  | .delete _ => True

instance : DecidablePred opTagsNodup := by
  intro op
  cases op <;> simp [opTagsNodup] <;> infer_instance

/-! ### Concrete instances used to instantiate the theorems -/

/-- A stored post with url `"u"`, updated at time 1. -/
def cexL : Post :=
  { id := "a", url := "u", platform := "website", dateAdded := 0
    updatedAt := 1 }

/-- A remote post sharing `cexL`'s id, updated later (time 5) with a new
title. -/
def cexR : Post :=
  { id := "a", url := "u", platform := "website", title := some "new"
    dateAdded := 0, updatedAt := 5 }

/-- An `addPost` input carrying a caller-supplied future `dateAdded`. -/
def cexInput6 : PostInput := { url := "u", dateAdded := some 5 }

/-- The post `addPost emptyStore cexInput6 "f" 3` stores. -/
def cexPost6 : Post :=
  { id := "f", url := "u", platform := "website", dateAdded := 5
    updatedAt := 3 }

/-- A stored post created at time 1. -/
def cexP7 : Post :=
  { id := "a", url := "u", platform := "website", dateAdded := 1
    updatedAt := 1 }

/-- An `updatePost` argument for the same id carrying a different
`dateAdded`. -/
def cexQ7 : Post :=
  { id := "a", url := "u", platform := "website", dateAdded := 9
    updatedAt := 1 }

/-- What `updatePost` stores for `cexQ7` at time 5. -/
def cexP7' : Post :=
  { id := "a", url := "u", platform := "website", dateAdded := 9
    updatedAt := 5 }

/-- The post stored by `addPost emptyStore { url := "w" } "g" 4`. -/
def wPost6 : Post :=
  { id := "g", url := "w", platform := "website", dateAdded := 4
    updatedAt := 4 }

/-- A three-post store for the pagination witnesses. -/
def wStore8 : Store :=
  { posts :=
      [ { id := "1", url := "u1", platform := "website", dateAdded := 3
          updatedAt := 3 },
        { id := "2", url := "u2", platform := "website", dateAdded := 1
          updatedAt := 1 },
        { id := "3", url := "u3", platform := "website", dateAdded := 2
          updatedAt := 2 } ]
    tags := [] }

/-- The mutation sequence of the spec's example scenario, first two
steps. -/
def witnessOps : List DBOp :=
  [ .add { url := "https://x.com/a/status/1", platform := "twitter"
           tags := ["news", "x"] } "id1" 10,
    .update { id := "id1", url := "https://x.com/a/status/1"
              platform := "twitter", tags := ["news"], dateAdded := 10
              updatedAt := 10 } 11 ]

/-! ### Derived views of the tag collection -/

/-- The count stored for `name`, read the way the source reads tag
records: first record with that name. -/
def lookupTag (tags : List Tag) (name : String) : Option Nat :=
  (tags.find? (fun t => t.name == name)).map Tag.count

/-- The names of the tag records, in order. -/
def tagNames (tags : List Tag) : List String :=
  tags.map Tag.name

/-- The number of stored posts whose tag list contains `name`. -/
def postCount (posts : List Post) (name : String) : Nat :=
  posts.countP (fun p => p.tags.contains name)

/-! ### Unfolding helpers -/

theorem lookupTag_cons_pos {t : Tag} {m : String} (rest : List Tag)
    (h : t.name = m) : lookupTag (t :: rest) m = some t.count := by
  rw [lookupTag, List.find?_cons_of_pos _ (by simpa [beq_iff_eq] using h)]
  rfl

theorem lookupTag_cons_neg {t : Tag} {m : String} (rest : List Tag)
    (h : ¬ t.name = m) : lookupTag (t :: rest) m = lookupTag rest m := by
  rw [lookupTag, List.find?_cons_of_neg _ (by simpa [beq_iff_eq] using h)]
  rfl

theorem incTag_cons_pos {t : Tag} {n : String} (rest : List Tag)
    (h : t.name = n) :
    incTag (t :: rest) n = ⟨t.name, t.count + 1⟩ :: rest := by
  simp [incTag, h]

theorem incTag_cons_neg {t : Tag} {n : String} (rest : List Tag)
    (h : ¬ t.name = n) : incTag (t :: rest) n = t :: incTag rest n := by
  simp [incTag, h]

theorem decTag_cons_del {t : Tag} {n : String} (rest : List Tag)
    (h : t.name = n) (hz : t.count - 1 = 0) : decTag (t :: rest) n = rest := by
  simp [decTag, h, hz]

theorem decTag_cons_upd {t : Tag} {n : String} (rest : List Tag)
    (h : t.name = n) (hz : ¬ t.count - 1 = 0) :
    decTag (t :: rest) n = ⟨t.name, t.count - 1⟩ :: rest := by
  simp [decTag, h, hz]

theorem decTag_cons_neg {t : Tag} {n : String} (rest : List Tag)
    (h : ¬ t.name = n) : decTag (t :: rest) n = t :: decTag rest n := by
  simp [decTag, h]

theorem lookupTag_eq_none_of_not_mem {tags : List Tag} {n : String}
    (h : n ∉ tagNames tags) : lookupTag tags n = none := by
  rw [lookupTag, List.find?_eq_none.mpr]
  · rfl
  · intro x hx
    simp only [beq_iff_eq]
    intro hc
    exact h (by simpa [tagNames] using ⟨x, hx, hc⟩)

/-! ### Lemmas about single tag-count updates -/

theorem lookupTag_incTag (tags : List Tag) (n m : String) :
    lookupTag (incTag tags n) m =
      if m = n then some ((lookupTag tags n).getD 0 + 1)
      else lookupTag tags m := by
  induction tags with
  | nil =>
      by_cases h : m = n
      · subst h
        rw [show incTag [] m = [⟨m, 1⟩] from rfl, lookupTag_cons_pos _ rfl]
        simp [lookupTag]
      · rw [show incTag [] n = [⟨n, 1⟩] from rfl,
          lookupTag_cons_neg _ (fun hc => h hc.symm)]
        simp [h]
  | cons t rest ih =>
      by_cases htn : t.name = n
      · rw [incTag_cons_pos rest htn]
        by_cases h : m = n
        · subst h
          rw [lookupTag_cons_pos rest (by simpa using htn),
            lookupTag_cons_pos rest htn]
          simp
        · have htm : ¬ t.name = m := fun hc => h (by rw [← hc, htn])
          rw [lookupTag_cons_neg rest (by simpa using htm),
            if_neg h, lookupTag_cons_neg rest htm]
      · rw [incTag_cons_neg rest htn]
        by_cases htm : t.name = m
        · have h : ¬ m = n := fun hc => htn (by rw [htm, hc])
          rw [lookupTag_cons_pos _ htm, if_neg h, lookupTag_cons_pos rest htm]
        · rw [lookupTag_cons_neg _ htm, ih]
          by_cases h : m = n
          · subst h
            rw [if_pos rfl, if_pos rfl, lookupTag_cons_neg rest htm]
          · rw [if_neg h, if_neg h, lookupTag_cons_neg rest htm]

theorem mem_names_incTag {tags : List Tag} {n m : String}
    (h : m ∈ tagNames (incTag tags n)) : m ∈ tagNames tags ∨ m = n := by
  induction tags with
  | nil =>
      rw [show incTag [] n = [⟨n, 1⟩] from rfl] at h
      simp [tagNames] at h
      exact Or.inr h
  | cons t rest ih =>
      by_cases htn : t.name = n
      · rw [incTag_cons_pos rest htn] at h
        exact Or.inl h
      · rw [incTag_cons_neg rest htn] at h
        simp [tagNames] at h ⊢
        rcases h with h | h
        · exact Or.inl (Or.inl h)
        · rcases ih (by simpa [tagNames] using h) with h' | h'
          · exact Or.inl (Or.inr (by simpa [tagNames] using h'))
          · exact Or.inr h'

theorem namesNodup_incTag (tags : List Tag) (n : String)
    (h : (tagNames tags).Nodup) : (tagNames (incTag tags n)).Nodup := by
  induction tags with
  | nil =>
      rw [show incTag [] n = [⟨n, 1⟩] from rfl]
      simp [tagNames]
  | cons t rest ih =>
      rw [show tagNames (t :: rest) = t.name :: tagNames rest from rfl] at h
      rw [List.nodup_cons] at h
      by_cases htn : t.name = n
      · rw [incTag_cons_pos rest htn]
        rw [show tagNames (⟨t.name, t.count + 1⟩ :: rest) =
          t.name :: tagNames rest from rfl]
        exact List.nodup_cons.mpr h
      · rw [incTag_cons_neg rest htn]
        rw [show tagNames (t :: incTag rest n) =
          t.name :: tagNames (incTag rest n) from rfl]
        refine List.nodup_cons.mpr ⟨?_, ih h.2⟩
        intro hc
        rcases mem_names_incTag hc with h' | h'
        · exact h.1 h'
        · exact htn h'

theorem mem_names_decTag {tags : List Tag} {n m : String}
    (h : m ∈ tagNames (decTag tags n)) : m ∈ tagNames tags := by
  induction tags with
  | nil => exact h
  | cons t rest ih =>
      by_cases htn : t.name = n
      · by_cases hz : t.count - 1 = 0
        · rw [decTag_cons_del rest htn hz] at h
          exact List.mem_cons_of_mem _ h
        · rw [decTag_cons_upd rest htn hz] at h
          exact h
      · rw [decTag_cons_neg rest htn] at h
        rw [show tagNames (t :: decTag rest n) =
          t.name :: tagNames (decTag rest n) from rfl] at h
        rcases List.mem_cons.mp h with h' | h'
        · exact h' ▸ List.mem_cons_self _ _
        · exact List.mem_cons_of_mem _ (ih h')

theorem namesNodup_decTag (tags : List Tag) (n : String)
    (h : (tagNames tags).Nodup) : (tagNames (decTag tags n)).Nodup := by
  induction tags with
  | nil => exact h
  | cons t rest ih =>
      rw [show tagNames (t :: rest) = t.name :: tagNames rest from rfl] at h
      rw [List.nodup_cons] at h
      by_cases htn : t.name = n
      · by_cases hz : t.count - 1 = 0
        · rw [decTag_cons_del rest htn hz]
          exact h.2
        · rw [decTag_cons_upd rest htn hz]
          rw [show tagNames (⟨t.name, t.count - 1⟩ :: rest) =
            t.name :: tagNames rest from rfl]
          exact List.nodup_cons.mpr h
      · rw [decTag_cons_neg rest htn]
        rw [show tagNames (t :: decTag rest n) =
          t.name :: tagNames (decTag rest n) from rfl]
        exact List.nodup_cons.mpr ⟨fun hc => h.1 (mem_names_decTag hc), ih h.2⟩

theorem lookupTag_decTag (tags : List Tag) (n m : String)
    (hnd : (tagNames tags).Nodup) :
    lookupTag (decTag tags n) m =
      if m = n then
        match lookupTag tags n with
        | none => none
        | some c => if c - 1 = 0 then none else some (c - 1)
      else lookupTag tags m := by
  induction tags with
  | nil =>
      by_cases h : m = n <;> simp [decTag, lookupTag, h]
  | cons t rest ih =>
      rw [show tagNames (t :: rest) = t.name :: tagNames rest from rfl] at hnd
      rw [List.nodup_cons] at hnd
      by_cases htn : t.name = n
      · by_cases hz : t.count - 1 = 0
        · rw [decTag_cons_del rest htn hz]
          by_cases h : m = n
          · subst h
            rw [if_pos rfl, lookupTag_cons_pos rest htn]
            rw [lookupTag_eq_none_of_not_mem (htn ▸ hnd.1)]
            simp [hz]
          · have htm : ¬ t.name = m := fun hc => h (by rw [← hc, htn])
            rw [if_neg h, lookupTag_cons_neg rest htm]
        · rw [decTag_cons_upd rest htn hz]
          by_cases h : m = n
          · subst h
            rw [if_pos rfl, lookupTag_cons_pos rest (by simpa using htn),
              lookupTag_cons_pos rest htn]
            simp [hz]
          · have htm : ¬ t.name = m := fun hc => h (by rw [← hc, htn])
            rw [if_neg h, lookupTag_cons_neg rest (by simpa using htm),
              lookupTag_cons_neg rest htm]
      · rw [decTag_cons_neg rest htn]
        by_cases htm : t.name = m
        · have h : ¬ m = n := fun hc => htn (by rw [htm, hc])
          rw [lookupTag_cons_pos _ htm, if_neg h, lookupTag_cons_pos rest htm]
        · rw [lookupTag_cons_neg _ htm, ih hnd.2]
          by_cases h : m = n
          · subst h
            rw [if_pos rfl, if_pos rfl, lookupTag_cons_neg rest htm]
          · rw [if_neg h, if_neg h, lookupTag_cons_neg rest htm]

/-! ### Lemmas about folded tag-count updates -/

theorem lookupTag_incTags (l : List String) (tags : List Tag) (m : String) :
    lookupTag (incTags tags l) m =
      if l.count m = 0 then lookupTag tags m
      else some ((lookupTag tags m).getD 0 + l.count m) := by
  induction l generalizing tags with
  | nil => simp [incTags]
  | cons n l' ih =>
      rw [show incTags tags (n :: l') = incTags (incTag tags n) l' from rfl,
        ih (incTag tags n), lookupTag_incTag, List.count_cons]
      by_cases hnm : n = m
      · subst hnm
        rw [if_pos rfl,
          show (List.count n l' + if (n == n) = true then 1 else 0)
            = List.count n l' + 1 from by simp]
        by_cases hk : List.count n l' = 0
        · rw [if_pos hk, hk, if_neg (by omega)]
        · rw [if_neg hk, if_neg (by omega)]
          simp only [Option.getD_some, Option.some.injEq]
          omega
      · have hmn : ¬ m = n := fun hc => hnm hc.symm
        simp only [if_neg hmn, beq_iff_eq, if_neg hnm, Nat.add_zero]

theorem namesNodup_incTags (l : List String) (tags : List Tag)
    (h : (tagNames tags).Nodup) : (tagNames (incTags tags l)).Nodup := by
  induction l generalizing tags with
  | nil => exact h
  | cons n l' ih =>
      exact ih (incTag tags n) (namesNodup_incTag tags n h)

theorem namesNodup_decTags (l : List String) (tags : List Tag)
    (h : (tagNames tags).Nodup) : (tagNames (decTags tags l)).Nodup := by
  induction l generalizing tags with
  | nil => exact h
  | cons n l' ih =>
      exact ih (decTag tags n) (namesNodup_decTag tags n h)

theorem lookupTag_decTags (l : List String) (tags : List Tag) (m : String)
    (hl : l.Nodup) (hnd : (tagNames tags).Nodup) :
    lookupTag (decTags tags l) m =
      if m ∈ l then
        match lookupTag tags m with
        | none => none
        | some c => if c - 1 = 0 then none else some (c - 1)
      else lookupTag tags m := by
  induction l generalizing tags with
  | nil => simp [decTags]
  | cons n l' ih =>
      rw [List.nodup_cons] at hl
      rw [show decTags tags (n :: l') = decTags (decTag tags n) l' from rfl,
        ih (decTag tags n) hl.2 (namesNodup_decTag tags n hnd)]
      by_cases hmem : m ∈ l'
      · have hmn : ¬ m = n := fun hc => hl.1 (hc ▸ hmem)
        rw [if_pos hmem, if_pos (List.mem_cons_of_mem _ hmem),
          lookupTag_decTag tags n m hnd, if_neg hmn]
      · by_cases hmn : m = n
        · subst hmn
          rw [if_neg hmem, if_pos (List.mem_cons_self _ _),
            lookupTag_decTag tags m m hnd, if_pos rfl]
        · rw [if_neg hmem, lookupTag_decTag tags n m hnd, if_neg hmn,
            if_neg (by simp [hmn, hmem])]

/-! ### Lemmas about post-list surgery -/

theorem countP_replaceFirstPost (posts : List Post) (p : Post)
    (f : Post → Bool) (ex : Post)
    (h : posts.find? (fun q => q.id == p.id) = some ex) :
    (replaceFirstPost posts p).countP f + (if f ex then 1 else 0)
      = posts.countP f + (if f p then 1 else 0) := by
  induction posts with
  | nil => simp at h
  | cons q rest ih =>
      by_cases hq : q.id = p.id
      · rw [List.find?_cons_of_pos _ (by simpa [beq_iff_eq] using hq)] at h
        injection h with h
        subst h
        rw [show replaceFirstPost (q :: rest) p = p :: rest by
          simp [replaceFirstPost, hq]]
        simp only [List.countP_cons]
        omega
      · rw [List.find?_cons_of_neg _ (by simpa [beq_iff_eq] using hq)] at h
        rw [show replaceFirstPost (q :: rest) p = q :: replaceFirstPost rest p
          by simp [replaceFirstPost, hq]]
        have := ih h
        simp only [List.countP_cons]
        omega

theorem countP_removeFirstPost (posts : List Post) (i : String)
    (f : Post → Bool) (ex : Post)
    (h : posts.find? (fun q => q.id == i) = some ex) :
    (removeFirstPost posts i).countP f + (if f ex then 1 else 0)
      = posts.countP f := by
  induction posts with
  | nil => simp at h
  | cons q rest ih =>
      by_cases hq : q.id = i
      · rw [List.find?_cons_of_pos _ (by simpa [beq_iff_eq] using hq)] at h
        injection h with h
        subst h
        rw [show removeFirstPost (q :: rest) i = rest by
          simp [removeFirstPost, hq]]
        simp only [List.countP_cons]
      · rw [List.find?_cons_of_neg _ (by simpa [beq_iff_eq] using hq)] at h
        rw [show removeFirstPost (q :: rest) i = q :: removeFirstPost rest i
          by simp [removeFirstPost, hq]]
        have := ih h
        simp only [List.countP_cons]
        omega

theorem find?_replaceFirstPost (posts : List Post) (p : Post) (ex : Post)
    (h : posts.find? (fun q => q.id == p.id) = some ex) :
    (replaceFirstPost posts p).find? (fun q => q.id == p.id) = some p := by
  induction posts with
  | nil => simp at h
  | cons q rest ih =>
      by_cases hq : q.id = p.id
      · rw [show replaceFirstPost (q :: rest) p = p :: rest by
          simp [replaceFirstPost, hq]]
        exact List.find?_cons_of_pos _ (by simp)
      · rw [List.find?_cons_of_neg _ (by simpa [beq_iff_eq] using hq)] at h
        rw [show replaceFirstPost (q :: rest) p = q :: replaceFirstPost rest p
          by simp [replaceFirstPost, hq]]
        rw [List.find?_cons_of_neg _ (by simpa [beq_iff_eq] using hq)]
        exact ih h

theorem mem_replaceFirstPost {posts : List Post} {p x : Post}
    (h : x ∈ replaceFirstPost posts p) : x ∈ posts ∨ x = p := by
  induction posts with
  | nil => simp [replaceFirstPost] at h
  | cons q rest ih =>
      by_cases hq : q.id = p.id
      · rw [show replaceFirstPost (q :: rest) p = p :: rest by
          simp [replaceFirstPost, hq]] at h
        rcases List.mem_cons.mp h with h' | h'
        · exact Or.inr h'
        · exact Or.inl (List.mem_cons_of_mem _ h')
      · rw [show replaceFirstPost (q :: rest) p = q :: replaceFirstPost rest p
          by simp [replaceFirstPost, hq]] at h
        rcases List.mem_cons.mp h with h' | h'
        · exact Or.inl (h' ▸ List.mem_cons_self _ _)
        · rcases ih h' with h'' | h''
          · exact Or.inl (List.mem_cons_of_mem _ h'')
          · exact Or.inr h''

theorem mem_of_mem_replaceFirstPost_ne {posts : List Post} {p x : Post}
    (hx : x ∈ posts) (hne : ¬ x.id = p.id) : x ∈ replaceFirstPost posts p := by
  induction posts with
  | nil => simp at hx
  | cons q rest ih =>
      by_cases hq : q.id = p.id
      · rw [show replaceFirstPost (q :: rest) p = p :: rest by
          simp [replaceFirstPost, hq]]
        rcases List.mem_cons.mp hx with h' | h'
        · exact absurd (h' ▸ hq) hne
        · exact List.mem_cons_of_mem _ h'
      · rw [show replaceFirstPost (q :: rest) p = q :: replaceFirstPost rest p
          by simp [replaceFirstPost, hq]]
        rcases List.mem_cons.mp hx with h' | h'
        · exact h' ▸ List.mem_cons_self _ _
        · exact List.mem_cons_of_mem _ (ih h')

theorem mem_removeFirstPost {posts : List Post} {i : String} {x : Post}
    (h : x ∈ removeFirstPost posts i) : x ∈ posts := by
  induction posts with
  | nil => simp [removeFirstPost] at h
  | cons q rest ih =>
      by_cases hq : q.id = i
      · rw [show removeFirstPost (q :: rest) i = rest by
          simp [removeFirstPost, hq]] at h
        exact List.mem_cons_of_mem _ h
      · rw [show removeFirstPost (q :: rest) i = q :: removeFirstPost rest i
          by simp [removeFirstPost, hq]] at h
        rcases List.mem_cons.mp h with h' | h'
        · exact h' ▸ List.mem_cons_self _ _
        · exact List.mem_cons_of_mem _ (ih h')

/-! ### The store invariant -/

theorem contains_iff_mem (l : List String) (a : String) :
    l.contains a = true ↔ a ∈ l :=
  List.elem_iff

theorem postCount_append (posts : List Post) (p : Post) (name : String) :
    postCount (posts ++ [p]) name
      = postCount posts name + if p.tags.contains name then 1 else 0 := by
  simp [postCount, List.countP_append, List.countP_cons]

/-- The tag collection agrees with the posts: reading any name yields
exactly the number of posts carrying it, and no record for an unused
name. -/
def TagsConsistent (s : Store) : Prop :=
  ∀ name, lookupTag s.tags name =
    if postCount s.posts name = 0 then none
    else some (postCount s.posts name)

/-- The inductive store invariant: tag counts consistent, tag record
names duplicate-free, and every stored post's tag list duplicate-free
(the last clause restates the data-model constraint on posts). -/
def StoreInv (s : Store) : Prop :=
  TagsConsistent s ∧ (tagNames s.tags).Nodup ∧ ∀ p ∈ s.posts, p.tags.Nodup

theorem StoreInv_empty : StoreInv emptyStore := by
  refine ⟨fun name => ?_, by simp [emptyStore, tagNames], by simp [emptyStore]⟩
  simp [lookupTag, postCount, emptyStore]

theorem StoreInv_addPost (s : Store) (input : PostInput) (fid : String)
    (now : Nat) (hinv : StoreInv s) (hnd : input.tags.Nodup) :
    StoreInv (applyOp s (.add input fid now)) := by
  obtain ⟨hc, hn, hp⟩ := hinv
  rw [applyOp]
  cases haddEq : addPost s input fid now with
  | error e => exact ⟨hc, hn, hp⟩
  | ok r =>
      rw [addPost] at haddEq
      split at haddEq
      · cases haddEq
      · cases haddEq
        set p := preparePost input fid now with hp_def
        have hptags : p.tags = input.tags := rfl
        refine ⟨fun name => ?_, namesNodup_incTags _ _ hn, fun x hx => ?_⟩
        · rw [show ({ posts := s.posts ++ [p], tags := incTags s.tags p.tags }
              : Store).tags = incTags s.tags p.tags from rfl,
            show ({ posts := s.posts ++ [p], tags := incTags s.tags p.tags }
              : Store).posts = s.posts ++ [p] from rfl,
            lookupTag_incTags, postCount_append]
          by_cases hmem : name ∈ p.tags
          · rw [if_neg (by
              rw [List.count_eq_one_of_mem (hptags ▸ hnd) hmem]
              omega)]
            rw [List.count_eq_one_of_mem (hptags ▸ hnd) hmem,
              if_pos ((contains_iff_mem _ _).mpr hmem), hc name]
            by_cases hz : postCount s.posts name = 0
            · rw [if_pos hz, hz, if_neg (by omega)]
              rfl
            · rw [if_neg hz, if_neg (by omega)]
              rfl
          · rw [if_pos (List.count_eq_zero.mpr hmem),
              if_neg (fun hcon => hmem ((contains_iff_mem _ _).mp hcon)),
              Nat.add_zero]
            exact hc name
        · rcases List.mem_append.mp hx with h' | h'
          · exact hp x h'
          · rw [List.mem_singleton.mp h']
            exact hptags ▸ hnd

theorem StoreInv_updatePost (s : Store) (post : Post) (now : Nat)
    (hinv : StoreInv s) (hnd : post.tags.Nodup) :
    StoreInv (applyOp s (.update post now)) := by
  obtain ⟨hc, hn, hp⟩ := hinv
  rw [applyOp]
  cases hupdEq : updatePost s post now with
  | error e => exact ⟨hc, hn, hp⟩
  | ok r =>
      rw [updatePost] at hupdEq
      set p : Post := { post with updatedAt := now } with hp_def
      have hptags : p.tags = post.tags := rfl
      cases hfind : s.posts.find? (fun q => q.id == p.id) with
      | none => rw [hfind] at hupdEq; cases hupdEq
      | some ex =>
          rw [hfind] at hupdEq
          cases hupdEq
          have hex_mem : ex ∈ s.posts := List.mem_of_find?_eq_some hfind
          have hex_nd : ex.tags.Nodup := hp ex hex_mem
          set toAdd := p.tags.filter (fun t => !(ex.tags.contains t))
            with hta_def
          set toRemove := ex.tags.filter (fun t => !(p.tags.contains t))
            with htr_def
          have hta_nd : toAdd.Nodup := (hptags ▸ hnd).filter _
          have htr_nd : toRemove.Nodup := hex_nd.filter _
          have hta_mem : ∀ name, name ∈ toAdd ↔ name ∈ p.tags ∧ name ∉ ex.tags := by
            intro name
            rw [hta_def, List.mem_filter]
            simp [contains_iff_mem]
          have htr_mem : ∀ name, name ∈ toRemove ↔ name ∈ ex.tags ∧ name ∉ p.tags := by
            intro name
            rw [htr_def, List.mem_filter]
            simp [contains_iff_mem]
          refine ⟨fun name => ?_,
            namesNodup_decTags _ _ (namesNodup_incTags _ _ hn),
            fun x hx => ?_⟩
          · show lookupTag (decTags (incTags s.tags toAdd) toRemove) name =
              if postCount (replaceFirstPost s.posts p) name = 0 then none
              else some (postCount (replaceFirstPost s.posts p) name)
            have hcount := countP_replaceFirstPost s.posts p
              (fun q => q.tags.contains name) ex hfind
            rw [lookupTag_decTags _ _ _ htr_nd (namesNodup_incTags _ _ hn),
              lookupTag_incTags]
            by_cases hmp : name ∈ p.tags <;> by_cases hmex : name ∈ ex.tags
            · have hrem : name ∉ toRemove := fun hcon =>
                ((htr_mem name).mp hcon).2 hmp
              have hadd : List.count name toAdd = 0 :=
                List.count_eq_zero.mpr (fun hcon => ((hta_mem name).mp hcon).2 hmex)
              have hpc : postCount (replaceFirstPost s.posts p) name
                  = postCount s.posts name := by
                have he : ex.tags.contains name = true :=
                  (contains_iff_mem _ _).mpr hmex
                have hpp : p.tags.contains name = true :=
                  (contains_iff_mem _ _).mpr hmp
                simp only [he, hpp, if_true] at hcount
                unfold postCount
                omega
              rw [if_neg hrem, hadd, if_pos rfl, hpc]
              exact hc name
            · have hrem : name ∉ toRemove := fun hcon =>
                ((htr_mem name).mp hcon).2 hmp
              have hadd : List.count name toAdd = 1 :=
                List.count_eq_one_of_mem hta_nd ((hta_mem name).mpr ⟨hmp, hmex⟩)
              have hpc : postCount (replaceFirstPost s.posts p) name
                  = postCount s.posts name + 1 := by
                have he : ex.tags.contains name = false := by
                  simp [contains_iff_mem, hmex]
                have hpp : p.tags.contains name = true :=
                  (contains_iff_mem _ _).mpr hmp
                simp only [he, hpp, if_true, Bool.false_eq_true, if_false] at hcount
                unfold postCount
                omega
              rw [if_neg hrem, hadd, if_neg (by omega), hc name, hpc]
              by_cases hz : postCount s.posts name = 0
              · rw [if_pos hz, hz, if_neg (by omega)]
                simp
              · rw [if_neg hz, if_neg (by omega)]
                simp
            · have hrem : name ∈ toRemove := (htr_mem name).mpr ⟨hmex, hmp⟩
              have hadd : List.count name toAdd = 0 :=
                List.count_eq_zero.mpr (fun hcon => hmp ((hta_mem name).mp hcon).1)
              have hcpos : 0 < postCount s.posts name := by
                unfold postCount
                rw [List.countP_pos_iff]
                exact ⟨ex, hex_mem, (contains_iff_mem _ _).mpr hmex⟩
              have hpc : postCount (replaceFirstPost s.posts p) name
                  = postCount s.posts name - 1 := by
                have he : ex.tags.contains name = true :=
                  (contains_iff_mem _ _).mpr hmex
                have hpp : p.tags.contains name = false := by
                  simp [contains_iff_mem, hmp]
                simp only [he, hpp, if_true, Bool.false_eq_true, if_false] at hcount
                unfold postCount
                omega
              rw [if_pos hrem, hadd, if_pos rfl, hc name, if_neg (by omega)]
              show (if postCount s.posts name - 1 = 0 then none
                  else some (postCount s.posts name - 1))
                = if postCount (replaceFirstPost s.posts p) name = 0 then none
                  else some (postCount (replaceFirstPost s.posts p) name)
              rw [hpc]
            · have hrem : name ∉ toRemove := fun hcon =>
                hmex ((htr_mem name).mp hcon).1
              have hadd : List.count name toAdd = 0 :=
                List.count_eq_zero.mpr (fun hcon => hmp ((hta_mem name).mp hcon).1)
              have hpc : postCount (replaceFirstPost s.posts p) name
                  = postCount s.posts name := by
                have he : ex.tags.contains name = false := by
                  simp [contains_iff_mem, hmex]
                have hpp : p.tags.contains name = false := by
                  simp [contains_iff_mem, hmp]
                simp only [he, hpp, Bool.false_eq_true, if_false] at hcount
                unfold postCount
                omega
              rw [if_neg hrem, hadd, if_pos rfl, hpc]
              exact hc name
          · have hx' : x ∈ replaceFirstPost s.posts p := hx
            rcases mem_replaceFirstPost hx' with h' | h'
            · exact hp x h'
            · rw [h']
              exact hptags ▸ hnd

theorem StoreInv_deletePost (s : Store) (id : String)
    (hinv : StoreInv s) : StoreInv (applyOp s (.delete id)) := by
  obtain ⟨hc, hn, hp⟩ := hinv
  rw [applyOp, deletePost]
  cases hfind : s.posts.find? (fun q => q.id == id) with
  | none => rw [deletePostCore, hfind]; exact ⟨hc, hn, hp⟩
  | some post =>
      rw [deletePostCore, hfind]
      have hmem : post ∈ s.posts := List.mem_of_find?_eq_some hfind
      have hnd : post.tags.Nodup := hp post hmem
      refine ⟨fun name => ?_, namesNodup_decTags _ _ hn, fun x hx => ?_⟩
      · show lookupTag (decTags s.tags post.tags) name =
          if postCount (removeFirstPost s.posts id) name = 0 then none
          else some (postCount (removeFirstPost s.posts id) name)
        have hcount := countP_removeFirstPost s.posts id
          (fun q => q.tags.contains name) post hfind
        rw [lookupTag_decTags _ _ _ hnd hn]
        by_cases hmp : name ∈ post.tags
        · have hcpos : 0 < postCount s.posts name := by
            unfold postCount
            rw [List.countP_pos_iff]
            exact ⟨post, hmem, (contains_iff_mem _ _).mpr hmp⟩
          have hpc : postCount (removeFirstPost s.posts id) name
              = postCount s.posts name - 1 := by
            have hpt : post.tags.contains name = true :=
              (contains_iff_mem _ _).mpr hmp
            simp only [hpt, if_true] at hcount
            unfold postCount
            omega
          rw [if_pos hmp, hc name, if_neg (by omega)]
          show (if postCount s.posts name - 1 = 0 then none
              else some (postCount s.posts name - 1))
            = if postCount (removeFirstPost s.posts id) name = 0 then none
              else some (postCount (removeFirstPost s.posts id) name)
          rw [hpc]
        · have hpc : postCount (removeFirstPost s.posts id) name
              = postCount s.posts name := by
            have hpt : post.tags.contains name = false := by
              simp [contains_iff_mem, hmp]
            simp only [hpt, Bool.false_eq_true, if_false] at hcount
            unfold postCount
            omega
          rw [if_neg hmp, hpc]
          exact hc name
      · have hx' : x ∈ removeFirstPost s.posts id := hx
        exact hp x (mem_removeFirstPost hx')

theorem StoreInv_applyOp (s : Store) (op : DBOp) (hinv : StoreInv s)
    (hop : opTagsNodup op) : StoreInv (applyOp s op) := by
  cases op with
  | add input fid now => exact StoreInv_addPost s input fid now hinv hop
  | update p now => exact StoreInv_updatePost s p now hinv hop
  | delete id => exact StoreInv_deletePost s id hinv

theorem StoreInv_applyOps (ops : List DBOp) (s : Store) (hinv : StoreInv s)
    (hops : ∀ op ∈ ops, opTagsNodup op) : StoreInv (applyOps s ops) := by
  induction ops generalizing s with
  | nil => exact hinv
  | cons op rest ih =>
      rw [show applyOps s (op :: rest) = applyOps (applyOp s op) rest from rfl]
      exact ih (applyOp s op)
        (StoreInv_applyOp s op hinv (hops op (List.mem_cons_self _ _)))
        (fun o ho => hops o (List.mem_cons_of_mem _ ho))

theorem lookupTag_self {tags : List Tag} (hnd : (tagNames tags).Nodup)
    {t : Tag} (ht : t ∈ tags) : lookupTag tags t.name = some t.count := by
  induction tags with
  | nil => simp at ht
  | cons q rest ih =>
      rw [show tagNames (q :: rest) = q.name :: tagNames rest from rfl,
        List.nodup_cons] at hnd
      rcases List.mem_cons.mp ht with h' | h'
      · rw [h']
        exact lookupTag_cons_pos rest rfl
      · have hq : ¬ q.name = t.name := fun hcon =>
          hnd.1 (hcon ▸ (by simpa [tagNames] using ⟨t, h', rfl⟩))
        rw [lookupTag_cons_neg rest hq]
        exact ih hnd.2 h'

/-! ### Inversion and query helpers -/

theorem find?_append_right {α : Type} {l₁ l₂ : List α} {p : α → Bool}
    (h : ∀ x ∈ l₁, ¬ p x = true) : (l₁ ++ l₂).find? p = l₂.find? p := by
  induction l₁ with
  | nil => rfl
  | cons a rest ih =>
      rw [List.cons_append,
        List.find?_cons_of_neg _ (h a (List.mem_cons_self _ _))]
      exact ih (fun x hx => h x (List.mem_cons_of_mem _ hx))

theorem updatePost_found (s : Store) (post : Post) (now : Nat) (ex : Post)
    (hfind : s.posts.find? (fun q => q.id == post.id) = some ex) :
    updatePost s post now = .ok ({ post with updatedAt := now },
      { posts := replaceFirstPost s.posts { post with updatedAt := now }
        tags := decTags (incTags s.tags
            (post.tags.filter (fun t => !(ex.tags.contains t))))
          (ex.tags.filter (fun t => !(post.tags.contains t))) }) := by
  show (match s.posts.find? (fun q => q.id == post.id) with
    | none => (Except.error DBErr.notFound : Except DBErr (Post × Store))
    | some existing =>
        Except.ok ({ post with updatedAt := now },
          { posts := replaceFirstPost s.posts { post with updatedAt := now }
            tags := decTags (incTags s.tags
                (post.tags.filter (fun t => !(existing.tags.contains t))))
              (existing.tags.filter (fun t => !(post.tags.contains t))) }))
    = _
  rw [hfind]

theorem updatePost_notFound (s : Store) (post : Post) (now : Nat)
    (hfind : s.posts.find? (fun q => q.id == post.id) = none) :
    updatePost s post now = .error .notFound := by
  show (match s.posts.find? (fun q => q.id == post.id) with
    | none => (Except.error DBErr.notFound : Except DBErr (Post × Store))
    | some existing =>
        Except.ok ({ post with updatedAt := now },
          { posts := replaceFirstPost s.posts { post with updatedAt := now }
            tags := decTags (incTags s.tags
                (post.tags.filter (fun t => !(existing.tags.contains t))))
              (existing.tags.filter (fun t => !(post.tags.contains t))) }))
    = _
  rw [hfind]

theorem insertLE_perm (le : Post → Post → Bool) (x : Post) (l : List Post) :
    (insertLE le x l).Perm (x :: l) := by
  induction l with
  | nil => exact List.Perm.refl _
  | cons y rest ih =>
      by_cases h : le y x
      · rw [show insertLE le x (y :: rest) = y :: insertLE le x rest by
          simp [insertLE, h]]
        exact (ih.cons y).trans (List.Perm.swap x y rest)
      · rw [show insertLE le x (y :: rest) = x :: y :: rest by
          simp [insertLE, h]]

theorem foldl_insertLE_perm (le : Post → Post → Bool) (l acc : List Post) :
    (l.foldl (fun a x => insertLE le x a) acc).Perm (l ++ acc) := by
  induction l generalizing acc with
  | nil => exact List.Perm.refl _
  | cons x rest ih =>
      rw [List.foldl_cons, List.cons_append]
      exact ((ih (insertLE le x acc)).trans
        (List.Perm.append_left rest (insertLE_perm le x acc))).trans
        List.perm_middle

theorem stableSort_perm (le : Post → Post → Bool) (l : List Post) :
    (stableSort le l).Perm l := by
  have := foldl_insertLE_perm le l []
  simpa [stableSort] using this

theorem find?_eq_of_perm_of_countP_one {l l' : List Post}
    {pred : Post → Bool} (hperm : l.Perm l') (hc : l.countP pred = 1)
    {x : Post} (hx : l.find? pred = some x) : l'.find? pred = some x := by
  have hx_p : pred x = true := List.find?_some hx
  have hx_mem : x ∈ l := List.mem_of_find?_eq_some hx
  have hflt : (l.filter pred).length = 1 := by
    rw [← List.countP_eq_length_filter]
    exact hc
  obtain ⟨z, hz⟩ := List.length_eq_one.mp hflt
  have hxz : x = z := by
    have hmem : x ∈ l.filter pred := List.mem_filter.mpr ⟨hx_mem, hx_p⟩
    rw [hz] at hmem
    simpa using hmem
  cases hfind : l'.find? pred with
  | none =>
      have hall := List.find?_eq_none.mp hfind
      have : l'.countP pred = 1 := (hperm.countP_eq pred) ▸ hc
      have hzero : l'.countP pred = 0 := by
        rw [List.countP_eq_length_filter, List.filter_eq_nil_iff.mpr hall]
        rfl
      omega
  | some y =>
      have hy_p : pred y = true := List.find?_some hfind
      have hy_mem : y ∈ l := hperm.mem_iff.mpr (List.mem_of_find?_eq_some hfind)
      have hyz : y = z := by
        have hmem : y ∈ l.filter pred := List.mem_filter.mpr ⟨hy_mem, hy_p⟩
        rw [hz] at hmem
        simpa using hmem
      rw [hyz, ← hxz]

theorem sortFilter_indep (posts : List Post) (o1 o2 : QueryOptions)
    (hsb : o1.sortBy = o2.sortBy) (hso : o1.sortOrder = o2.sortOrder)
    (hft : o1.filterTags = o2.filterTags) (hst : o1.searchTerm = o2.searchTerm)
    (hpl : o1.platform = o2.platform) :
    sortFilter posts o1 = sortFilter posts o2 := by
  simp only [sortFilter, hsb, hso, hft, hst, hpl]

theorem processQuery_limit_pos (posts : List Post) (opts : QueryOptions)
    (l : Nat) (hl : l ≠ 0) (off : Option Nat) :
    processQuery posts { opts with limit := some l, offset := off }
      = ((sortFilter posts { opts with limit := some l, offset := off
          }).drop (off.getD 0)).take l := by
  have hl' : (l != 0) = true := by simpa using hl
  simp only [processQuery, hl', if_true]

/-! ### The claims -/

/-- C1: for every sequence of addPost/updatePost/deletePost operations
starting from the empty store (operation inputs obeying the data model's
"duplicates not allowed per post" constraint on tag lists), at every
quiescent point each tag record's stored count equals the number of
currently stored posts whose tags list contains that tag's name, and no
tag record with count 0 is present in the tag collection. -/
theorem claim_C1_tag_count_invariant (ops : List DBOp)
    (hops : ∀ op ∈ ops, opTagsNodup op) :
    ∀ t ∈ (applyOps emptyStore ops).tags,
      t.count = postCount (applyOps emptyStore ops).posts t.name ∧
      t.count ≠ 0 := by
  obtain ⟨hc, hn, -⟩ := StoreInv_applyOps ops emptyStore StoreInv_empty hops
  intro t ht
  have hl := lookupTag_self hn ht
  have hcons := hc t.name
  rw [hl] at hcons
  by_cases hz : postCount (applyOps emptyStore ops).posts t.name = 0
  · rw [if_pos hz] at hcons
    cases hcons
  · rw [if_neg hz] at hcons
    have heq : t.count = postCount (applyOps emptyStore ops).posts t.name :=
      Option.some_injective _ hcons
    exact ⟨heq, by omega⟩

/-- C1 witness: the spec's example scenario (add a post tagged
news and x, then update it to just news) satisfies the invariant's
hypotheses and conclusion. -/
theorem claim_C1_witness :
    (∀ op ∈ witnessOps, opTagsNodup op) ∧
    ∀ t ∈ (applyOps emptyStore witnessOps).tags,
      t.count = postCount (applyOps emptyStore witnessOps).posts t.name ∧
      t.count ≠ 0 :=
  ⟨by decide, claim_C1_tag_count_invariant witnessOps (by decide)⟩

/-- C3 counterexample: `deletePost` of a missing id does NOT reject —
its own catch turns the internal NotFound throw into a promise that
resolves with `false` (matching its documented
`@returns Promise bool Success status` contract), so the claim that the
returned promise rejects with NotFound is false. -/
theorem claim_C3_counterexample :
    deletePost emptyStore "missing" = .ok (false, emptyStore) ∧
    ¬ ∃ e, deletePost emptyStore "missing" = .error e := by
  refine ⟨rfl, ?_⟩
  rintro ⟨e, he⟩
  rw [show deletePost emptyStore "missing" = .ok (false, emptyStore)
    from rfl] at he
  cases he

/-- C3 amended: for every id such that no stored post has that id,
`deletePost id` resolves with `false` (it does not reject; the NotFound
error is caught internally and logged) and the store is unchanged. -/
theorem claim_C3_amended (s : Store) (id : String)
    (h : ∀ p ∈ s.posts, p.id ≠ id) :
    deletePost s id = .ok (false, s) := by
  have hfind : s.posts.find? (fun q => q.id == id) = none :=
    List.find?_eq_none.mpr (fun x hx => by simpa [beq_iff_eq] using h x hx)
  show (match (match s.posts.find? (fun q => q.id == id) with
      | none => (Except.error DBErr.notFound : Except DBErr (Bool × Store))
      | some post => Except.ok (true,
          { posts := removeFirstPost s.posts id
            tags := decTags s.tags post.tags })) with
    | .error _ => Except.ok (false, s)
    | .ok r => Except.ok r) = Except.ok (false, s)
  rw [hfind]

/-- C3 witness: deleting from the empty store resolves `false` with the
store unchanged. -/
theorem claim_C3_witness :
    (∀ p ∈ emptyStore.posts, p.id ≠ "missing") ∧
    deletePost emptyStore "missing" = .ok (false, emptyStore) :=
  ⟨by decide, claim_C3_amended emptyStore "missing" (by decide)⟩

/-- C4 counterexample: on the indexed (IndexedDB) backend a failed
backend read rejects the caller's promise — `request.onerror` calls
`reject`, which the operation's try/catch cannot intercept because the
rejection is asynchronous — so the claim that reads never reject for
every backend is false. -/
theorem claim_C4_counterexample :
    getAllPostsIndexed (.error .storage) {} = .error .storage ∧
    getPostByIdIndexed (.error .storage) = .error .storage :=
  ⟨rfl, rfl⟩

/-- C4 amended: on the fallback backend, reads never reject: for every
outcome of the underlying document read/parse and every input,
`getAllPosts` resolves with a list (empty on failure) and `getPostById`
resolves with a post or null; the indexed backend, by contrast,
propagates a failed read as a rejection. -/
theorem claim_C4_amended :
    (∀ (raw : Except DBErr Store) (opts : QueryOptions),
      ∃ l, getAllPosts raw opts = .ok l) ∧
    (∀ (raw : Except DBErr Store) (id : String),
      ∃ r, getPostById raw id = .ok r) := by
  constructor
  · intro raw opts
    cases raw <;> exact ⟨_, rfl⟩
  · intro raw id
    cases raw <;> exact ⟨_, rfl⟩

/-- C5: on the fallback backend, `addPost` of a post whose url matches a
stored post fails with DuplicateURL, and the store (posts and tag
records alike) is exactly as before the call — the duplicate check
throws before anything is written back. -/
theorem claim_C5_duplicate_url (s : Store) (input : PostInput)
    (fid : String) (now : Nat)
    (hdup : ∃ q ∈ s.posts, q.url = input.url) :
    addPost s input fid now = .error .duplicateURL ∧
    applyOp s (.add input fid now) = s := by
  have hany : s.posts.any
      (fun q => q.url == (preparePost input fid now).url) = true := by
    obtain ⟨q, hq, hu⟩ := hdup
    exact List.any_eq_true.mpr ⟨q, hq, by simpa [beq_iff_eq, preparePost] using hu⟩
  have h1 : addPost s input fid now = .error .duplicateURL := by
    show (if s.posts.any (fun q => q.url == (preparePost input fid now).url)
        then (Except.error DBErr.duplicateURL : Except DBErr (Post × Store))
        else Except.ok (preparePost input fid now,
          { posts := s.posts ++ [preparePost input fid now]
            tags := incTags s.tags (preparePost input fid now).tags }))
      = Except.error DBErr.duplicateURL
    rw [if_pos hany]
  refine ⟨h1, ?_⟩
  show (match addPost s input fid now with
    | .error _ => s
    | .ok (_, s') => s') = s
  rw [h1]

/-- C5 witness: adding a second post with url u to a store already
holding one fails with DuplicateURL. -/
theorem claim_C5_witness :
    (∃ q ∈ ({ posts := [cexL], tags := [] } : Store).posts,
      q.url = ({ url := "u" } : PostInput).url) ∧
    addPost { posts := [cexL], tags := [] } { url := "u" } "f" 5
      = .error .duplicateURL := by
  have hdup : ∃ q ∈ ({ posts := [cexL], tags := [] } : Store).posts,
      q.url = ({ url := "u" } : PostInput).url := ⟨cexL, by decide, rfl⟩
  exact ⟨hdup,
    (claim_C5_duplicate_url { posts := [cexL], tags := [] }
      { url := "u" } "f" 5 hdup).1⟩

/-- C6 counterexample: a post accepted with a caller-supplied `dateAdded`
in the future round-trips, but its generated `updatedAt` (set to now) is
strictly below its `dateAdded`, so the claimed self-consistency
`updatedAt ≥ dateAdded` fails. -/
theorem claim_C6_counterexample :
    addPost emptyStore cexInput6 "f" 3
      = .ok (cexPost6, { posts := [cexPost6], tags := [] }) ∧
    getPostByIdFB { posts := [cexPost6], tags := [] } cexPost6.id
      = some cexPost6 ∧
    ¬ cexPost6.dateAdded ≤ cexPost6.updatedAt := by
  refine ⟨rfl, by decide, by decide⟩

/-- C6 amended: for every post accepted by `addPost` into a store with
no post already carrying its id, `getPostById` of the generated id
returns the stored post, equal to the input on every caller-supplied
field, with `updatedAt = now`; and `updatedAt ≥ dateAdded` holds
whenever `dateAdded` was absent (hence generated as now) or
caller-supplied as a time not in the future. -/
theorem claim_C6_amended (s : Store) (input : PostInput) (fid : String)
    (now : Nat) (p : Post) (s' : Store)
    (h : addPost s input fid now = .ok (p, s'))
    (hid : ∀ q ∈ s.posts, q.id ≠ p.id)
    (hdate : input.dateAdded = none ∨
      ∃ d, input.dateAdded = some d ∧ d ≤ now) :
    getPostByIdFB s' p.id = some p ∧
    p.url = input.url ∧ p.platform = input.platform ∧
    p.title = input.title ∧ p.description = input.description ∧
    p.tags = input.tags ∧ p.updatedAt = now ∧
    p.dateAdded ≤ p.updatedAt := by
  rw [show addPost s input fid now
      = (if s.posts.any (fun q => q.url == (preparePost input fid now).url)
          then (Except.error DBErr.duplicateURL : Except DBErr (Post × Store))
          else Except.ok (preparePost input fid now,
            { posts := s.posts ++ [preparePost input fid now]
              tags := incTags s.tags (preparePost input fid now).tags }))
    from rfl] at h
  split at h
  · cases h
  · injection h with h
    injection h with hp hs
    subst hp
    subst hs
    refine ⟨?_, rfl, rfl, rfl, rfl, rfl, rfl, ?_⟩
    · show (s.posts ++ [preparePost input fid now]).find?
        (fun q => q.id == (preparePost input fid now).id)
        = some (preparePost input fid now)
      rw [find?_append_right (fun x hx => by
        simpa [beq_iff_eq] using hid x hx)]
      exact List.find?_cons_of_pos _ (by simp)
    · show (preparePost input fid now).dateAdded
        ≤ (preparePost input fid now).updatedAt
      rcases hdate with hd | ⟨d, hd, hdle⟩ <;>
        simp [preparePost, hd]
      exact hdle

/-- C6 witness: a post with no caller-supplied `dateAdded` round-trips
with `updatedAt = dateAdded = now`. -/
theorem claim_C6_witness :
    addPost emptyStore { url := "w" } "g" 4
      = .ok (wPost6, { posts := [wPost6], tags := [] }) ∧
    getPostByIdFB { posts := [wPost6], tags := [] } wPost6.id
      = some wPost6 ∧
    wPost6.dateAdded ≤ wPost6.updatedAt := by
  have h : addPost emptyStore { url := "w" } "g" 4
      = .ok (wPost6, { posts := [wPost6], tags := [] }) := rfl
  have hres := claim_C6_amended emptyStore { url := "w" } "g" 4 wPost6
    { posts := [wPost6], tags := [] } h (by decide) (Or.inl rfl)
  exact ⟨h, hres.1, hres.2.2.2.2.2.2.2⟩

/-- C7 counterexample: `updatePost` stores its argument wholesale, so an
argument carrying a different `dateAdded` changes the stored post's
`dateAdded` (here from 1 to 9) — `dateAdded` is not immutable under
updatePost with arbitrary arguments. -/
theorem claim_C7_counterexample :
    updatePost { posts := [cexP7], tags := [] } cexQ7 5
      = .ok (cexP7', { posts := [cexP7'], tags := [] }) ∧
    cexP7'.dateAdded ≠ cexP7.dateAdded := by
  refine ⟨rfl, by decide⟩

/-- C7 amended: a successful `updatePost` replaces the target post
wholesale with its argument (with `updatedAt` refreshed): afterwards the
stored post for that id is exactly the argument, so its `dateAdded`
equals the argument's `dateAdded` — it is preserved only when the caller
passes the original value; every other stored post is untouched. -/
theorem claim_C7_amended (s : Store) (q : Post) (now : Nat) (r : Post)
    (s' : Store) (h : updatePost s q now = .ok (r, s')) :
    getPostByIdFB s' q.id = some { q with updatedAt := now } ∧
    ∀ x ∈ s.posts, x.id ≠ q.id → x ∈ s'.posts := by
  cases hfind : s.posts.find? (fun qq => qq.id == q.id) with
  | none =>
      rw [updatePost_notFound s q now hfind] at h
      cases h
  | some ex =>
      rw [updatePost_found s q now ex hfind] at h
      injection h with h
      injection h with hr hs
      subst hs
      constructor
      · exact find?_replaceFirstPost s.posts { q with updatedAt := now }
          ex hfind
      · intro x hx hne
        exact mem_of_mem_replaceFirstPost_ne hx hne

/-- C7 witness: updating `cexP7` with the argument `cexQ7` stores
exactly `cexQ7` with its `updatedAt` refreshed. -/
theorem claim_C7_witness :
    updatePost { posts := [cexP7], tags := [] } cexQ7 5
      = .ok (cexP7', { posts := [cexP7'], tags := [] }) ∧
    getPostByIdFB { posts := [cexP7'], tags := [] } cexQ7.id
      = some { cexQ7 with updatedAt := 5 } :=
  ⟨rfl,
    (claim_C7_amended { posts := [cexP7], tags := [] } cexQ7 5 cexP7'
      { posts := [cexP7'], tags := [] } rfl).1⟩

/-- C8: pagination composes — for every store, fixed filter/sort options
and n > 0, concatenating the pages `{offset: 0, limit: n}` and
`{offset: n, limit: n}` yields exactly `{limit: 2n}` (no offset), since
all three calls filter and sort identically and the slices
`[0, n) ++ [n, 2n)` cover `[0, 2n)`. -/
theorem claim_C8_pagination (s : Store) (opts : QueryOptions) (n : Nat)
    (hn : 0 < n) :
    getAllPostsFB s { opts with limit := some n, offset := some 0 } ++
    getAllPostsFB s { opts with limit := some n, offset := some n } =
    getAllPostsFB s { opts with limit := some (2 * n), offset := none } := by
  show processQuery s.posts _ ++ processQuery s.posts _
    = processQuery s.posts _
  rw [processQuery_limit_pos s.posts opts n (by omega) (some 0),
    processQuery_limit_pos s.posts opts n (by omega) (some n),
    processQuery_limit_pos s.posts opts (2 * n) (by omega) none,
    sortFilter_indep s.posts { opts with limit := some n, offset := some 0 }
      opts rfl rfl rfl rfl rfl,
    sortFilter_indep s.posts { opts with limit := some n, offset := some n }
      opts rfl rfl rfl rfl rfl,
    sortFilter_indep s.posts
      { opts with limit := some (2 * n), offset := none }
      opts rfl rfl rfl rfl rfl]
  simp only [Option.getD_some, Option.getD_none, List.drop_zero]
  rw [two_mul, List.take_add]

/-- C8 witness: on a three-post store, pages of size 1 at offsets 0 and
1 concatenate to the first two posts. -/
theorem claim_C8_witness :
    (0 : Nat) < 1 ∧
    getAllPostsFB wStore8 { limit := some 1, offset := some 0 } ++
    getAllPostsFB wStore8 { limit := some 1, offset := some 1 } =
    getAllPostsFB wStore8 { limit := some 2, offset := none } :=
  ⟨Nat.one_pos, claim_C8_pagination wStore8 {} 1 Nat.one_pos⟩

/-- C10: when the options omit `limit` or set it to 0 (both falsy in
the source's `if (limit)` check), `getAllPosts` ignores `offset`
entirely and returns the complete filtered, sorted sequence — the
pagination slice runs only for a truthy limit. -/
theorem claim_C10_no_limit (s : Store) (opts : QueryOptions)
    (h : opts.limit = none ∨ opts.limit = some 0) (off : Option Nat) :
    getAllPostsFB s { opts with offset := off } = sortFilter s.posts opts := by
  show processQuery s.posts { opts with offset := off }
    = sortFilter s.posts opts
  rcases h with h | h
  · simp only [processQuery, h]
    exact sortFilter_indep s.posts _ _ rfl rfl rfl rfl rfl
  · simp only [processQuery, h, bne_self_eq_false, Bool.false_eq_true,
      if_false]
    exact sortFilter_indep s.posts _ _ rfl rfl rfl rfl rfl

theorem drainPending_cons_settled (s s' : Store) (now : Nat)
    (r : Option OpResult) (c : OpCall) (rest : List OpCall)
    (hsl : drainSync s now (c :: rest)
      = (.settled r :: (drainSync s' now rest).1,
         (drainSync s' now rest).2)) :
    drainPending s now (c :: rest)
      = (r :: (drainPending s' now rest).1,
         (drainPending s' now rest).2) := by
  show runConts (drainSync s now (c :: rest)).2 now
    (drainSync s now (c :: rest)).1 = _
  rw [hsl]
  rfl

/-- C9 counterexample: two failure modes refute the claim that every
deferred caller's future resolves with the as-if-ready result.
First, a deferred addPost hitting the duplicate-url rejection leaves its
caller's future permanently unsettled (only `.then(resolve)` is wired),
whereas ready-at-call-time the caller would observe the rejection.
Second, a queue deletePost "a" then getPostById "a": the deletePost
closure suspends at its internal `await this.getPostById`, so the
getPostById closure's synchronous body runs against the pre-deletion
store and its caller resolves with the post — ready-at-call-time
sequential execution would resolve it with null. -/
theorem claim_C9_counterexample :
    (drainPending { posts := [cexL], tags := [] } 5
      [OpCall.addCall { url := "u" } "f"]).1 = [none] ∧
    runOp { posts := [cexL], tags := [] } 5
      (OpCall.addCall { url := "u" } "f") = .error .duplicateURL ∧
    (drainPending { posts := [cexL], tags := [] } 5
      [OpCall.deleteCall "a", OpCall.getByIdCall "a"]).1
      = [some (.boolRes true), some (.foundRes (some cexL))] ∧
    (runSeqReady { posts := [cexL], tags := [] } 5
      [OpCall.deleteCall "a", OpCall.getByIdCall "a"]).1
      = [Except.ok (.boolRes true), Except.ok (.foundRes none)] :=
  ⟨rfl, rfl, rfl, rfl⟩

/-- C9 amended: pre-ready operations are re-invoked with their original
arguments in FIFO order once the store is ready.  For every queue of
the fully-synchronous operations (addPost, getAllPosts, getPostById,
whose fallback bodies contain no `await`), each caller's future settles
exactly with the result of executing the queue sequentially at drain
time: a resolving operation delivers its value and a rejecting one
leaves the caller's future permanently pending (`Except.toOption` of
the as-if-ready outcome).  updatePost and deletePost are excluded: they
suspend at an internal `await`, reading the store during the drain but
mutating it only after every queued closure's synchronous body has
run. -/
theorem claim_C9_amended (s : Store) (now : Nat) (q : List OpCall)
    (h : ∀ c ∈ q, syncCall c) :
    drainPending s now q
      = ((runSeqReady s now q).1.map Except.toOption,
         (runSeqReady s now q).2) := by
  induction q generalizing s with
  | nil => rfl
  | cons c rest ih =>
      have hc : syncCall c := h c (List.mem_cons_self _ _)
      have hrest : ∀ x ∈ rest, syncCall x :=
        fun x hx => h x (List.mem_cons_of_mem _ hx)
      cases c with
      | addCall input fid =>
          cases ha : addPost s input fid now with
          | ok ps =>
              obtain ⟨p, s'⟩ := ps
              have hd := drainPending_cons_settled s s' now
                (some (.postRes p)) (.addCall input fid) rest (by
                  show (match addPost s input fid now with
                    | .ok (p, s') =>
                        (DrainSlot.settled (some (.postRes p))
                            :: (drainSync s' now rest).1,
                         (drainSync s' now rest).2)
                    | .error _ =>
                        (DrainSlot.settled none :: (drainSync s now rest).1,
                         (drainSync s now rest).2)) = _
                  rw [ha])
              have hro : runOp s now (.addCall input fid)
                  = .ok (.postRes p, s') := by
                show (addPost s input fid now).map
                  (fun r => (OpResult.postRes r.1, r.2)) = _
                rw [ha]
                rfl
              have hr : runSeqReady s now (.addCall input fid :: rest)
                  = (.ok (.postRes p) :: (runSeqReady s' now rest).1,
                     (runSeqReady s' now rest).2) := by
                show (match runOp s now (.addCall input fid) with
                  | .ok (v, s') =>
                      (Except.ok v :: (runSeqReady s' now rest).1,
                       (runSeqReady s' now rest).2)
                  | .error e =>
                      (Except.error e :: (runSeqReady s now rest).1,
                       (runSeqReady s now rest).2)) = _
                rw [hro]
              rw [hd, hr, ih s' hrest]
              rfl
          | error e =>
              have hd := drainPending_cons_settled s s now
                none (.addCall input fid) rest (by
                  show (match addPost s input fid now with
                    | .ok (p, s') =>
                        (DrainSlot.settled (some (.postRes p))
                            :: (drainSync s' now rest).1,
                         (drainSync s' now rest).2)
                    | .error _ =>
                        (DrainSlot.settled none :: (drainSync s now rest).1,
                         (drainSync s now rest).2)) = _
                  rw [ha])
              have hro : runOp s now (.addCall input fid) = .error e := by
                show (addPost s input fid now).map
                  (fun r => (OpResult.postRes r.1, r.2)) = _
                rw [ha]
                rfl
              have hr : runSeqReady s now (.addCall input fid :: rest)
                  = (.error e :: (runSeqReady s now rest).1,
                     (runSeqReady s now rest).2) := by
                show (match runOp s now (.addCall input fid) with
                  | .ok (v, s') =>
                      (Except.ok v :: (runSeqReady s' now rest).1,
                       (runSeqReady s' now rest).2)
                  | .error e =>
                      (Except.error e :: (runSeqReady s now rest).1,
                       (runSeqReady s now rest).2)) = _
                rw [hro]
              rw [hd, hr, ih s hrest]
              rfl
      | getAllCall opts =>
          have hd := drainPending_cons_settled s s now
            (some (.postsRes (getAllPostsFB s opts))) (.getAllCall opts)
            rest rfl
          have hr : runSeqReady s now (.getAllCall opts :: rest)
              = (.ok (.postsRes (getAllPostsFB s opts))
                    :: (runSeqReady s now rest).1,
                 (runSeqReady s now rest).2) := rfl
          rw [hd, hr, ih s hrest]
          rfl
      | getByIdCall id =>
          have hd := drainPending_cons_settled s s now
            (some (.foundRes (getPostByIdFB s id))) (.getByIdCall id)
            rest rfl
          have hr : runSeqReady s now (.getByIdCall id :: rest)
              = (.ok (.foundRes (getPostByIdFB s id))
                    :: (runSeqReady s now rest).1,
                 (runSeqReady s now rest).2) := rfl
          rw [hd, hr, ih s hrest]
          rfl
      | updateCall p => exact False.elim hc
      | deleteCall id => exact False.elim hc

/-- C9 witness: a two-element queue of synchronous operations (addPost
then getPostById) drains to exactly the sequential drain-time
results. -/
theorem claim_C9_witness :
    (∀ c ∈ [OpCall.addCall { url := "w" } "g", OpCall.getByIdCall "g"],
      syncCall c) ∧
    drainPending emptyStore 4
        [OpCall.addCall { url := "w" } "g", OpCall.getByIdCall "g"]
      = ((runSeqReady emptyStore 4
            [OpCall.addCall { url := "w" } "g",
             OpCall.getByIdCall "g"]).1.map Except.toOption,
         (runSeqReady emptyStore 4
            [OpCall.addCall { url := "w" } "g",
             OpCall.getByIdCall "g"]).2) :=
  ⟨by decide, claim_C9_amended emptyStore 4 _ (by decide)⟩

/-- C2 counterexample: with local L (updatedAt 1) and remote R
(updatedAt 5) sharing an id, the merge calls `updatePost(R)`, which
restamps `updatedAt` with the local clock (here 7), so the local post
after the cycle is NOT equal to R — it differs on `updatedAt`. -/
theorem claim_C2_counterexample :
    (syncCycle { posts := [cexL], tags := [] } [cexR] 7).1.posts.find?
        (fun q => q.id == cexR.id) = some { cexR with updatedAt := 7 } ∧
    ({ cexR with updatedAt := 7 } : Post) ≠ cexR :=
  ⟨rfl, by decide⟩

/-- C2 amended: for a store holding exactly one post L with R's id and
remote list [R]: if R.updatedAt > L.updatedAt, after the cycle the local
post for that id equals R except `updatedAt`, which is restamped with
the merge time, and R itself is untouched remotely; if
R.updatedAt < L.updatedAt, the local store is unchanged and R is not
overwritten remotely. -/
theorem claim_C2_amended (s : Store) (L R : Post) (now : Nat)
    (huniq : s.posts.countP (fun q => q.id == R.id) = 1)
    (hfind : s.posts.find? (fun q => q.id == R.id) = some L) :
    (R.updatedAt > L.updatedAt →
      (syncCycle s [R] now).1.posts.find? (fun q => q.id == R.id)
          = some { R with updatedAt := now } ∧
      (syncCycle s [R] now).2.find? (fun q => q.id == R.id) = some R) ∧
    (R.updatedAt < L.updatedAt →
      (syncCycle s [R] now).1 = s ∧
      (syncCycle s [R] now).2.find? (fun q => q.id == R.id) = some R) := by
  have hsnap : (getAllPostsFB s {}).find? (fun lp => lp.id == R.id)
      = some L := by
    have hperm : s.posts.Perm (getAllPostsFB s {}) :=
      (stableSort_perm (postLE none none) s.posts).symm
    exact find?_eq_of_perm_of_countP_one hperm huniq hfind
  constructor
  · intro hgt
    have hupd := updatePost_found s R now L hfind
    have hml : mergeLoop s (getAllPostsFB s {}) now [R]
        = ({ posts := replaceFirstPost s.posts { R with updatedAt := now }
             tags := decTags (incTags s.tags
                 (R.tags.filter (fun t => !(L.tags.contains t))))
               (L.tags.filter (fun t => !(R.tags.contains t))) },
           true) := by
      show (match (getAllPostsFB s {}).find? (fun lp => lp.id == R.id) with
        | none =>
            match addPost s (postToInput R) "" now with
            | .error _ => (s, false)
            | .ok (_, s') => mergeLoop s' (getAllPostsFB s {}) now []
        | some lp =>
            if R.updatedAt > lp.updatedAt then
              match updatePost s R now with
              | .error _ => (s, false)
              | .ok (_, s') => mergeLoop s' (getAllPostsFB s {}) now []
            else mergeLoop s (getAllPostsFB s {}) now []) = _
      rw [hsnap]
      show (if R.updatedAt > L.updatedAt then
          match updatePost s R now with
          | .error _ => (s, false)
          | .ok (_, s') => mergeLoop s' (getAllPostsFB s {}) now []
        else mergeLoop s (getAllPostsFB s {}) now []) = _
      rw [if_pos hgt, hupd]
      rfl
    have hcyc : syncCycle s [R] now
        = ({ posts := replaceFirstPost s.posts { R with updatedAt := now }
             tags := decTags (incTags s.tags
                 (R.tags.filter (fun t => !(L.tags.contains t))))
               (L.tags.filter (fun t => !(R.tags.contains t))) },
           [R] ++ (getAllPostsFB s {}).filter
             (fun lp => [R].all (fun rp => rp.id != lp.id))) := by
      show (if (mergeLoop s (getAllPostsFB s {}) now [R]).2 then
          ((mergeLoop s (getAllPostsFB s {}) now [R]).1,
            [R] ++ (getAllPostsFB s {}).filter
              (fun lp => [R].all (fun rp => rp.id != lp.id)))
        else ((mergeLoop s (getAllPostsFB s {}) now [R]).1, [R])) = _
      rw [hml]
      rfl
    constructor
    · rw [hcyc]
      exact find?_replaceFirstPost s.posts { R with updatedAt := now }
        L hfind
    · rw [hcyc]
      show (R :: (getAllPostsFB s {}).filter
          (fun lp => [R].all (fun rp => rp.id != lp.id))).find?
            (fun q => q.id == R.id) = some R
      exact List.find?_cons_of_pos _ (by simp)
  · intro hlt
    have hml : mergeLoop s (getAllPostsFB s {}) now [R] = (s, true) := by
      show (match (getAllPostsFB s {}).find? (fun lp => lp.id == R.id) with
        | none =>
            match addPost s (postToInput R) "" now with
            | .error _ => (s, false)
            | .ok (_, s') => mergeLoop s' (getAllPostsFB s {}) now []
        | some lp =>
            if R.updatedAt > lp.updatedAt then
              match updatePost s R now with
              | .error _ => (s, false)
              | .ok (_, s') => mergeLoop s' (getAllPostsFB s {}) now []
            else mergeLoop s (getAllPostsFB s {}) now []) = _
      rw [hsnap]
      show (if R.updatedAt > L.updatedAt then
          match updatePost s R now with
          | .error _ => (s, false)
          | .ok (_, s') => mergeLoop s' (getAllPostsFB s {}) now []
        else mergeLoop s (getAllPostsFB s {}) now []) = _
      rw [if_neg (by omega)]
      rfl
    have hcyc : syncCycle s [R] now
        = (s, [R] ++ (getAllPostsFB s {}).filter
            (fun lp => [R].all (fun rp => rp.id != lp.id))) := by
      show (if (mergeLoop s (getAllPostsFB s {}) now [R]).2 then
          ((mergeLoop s (getAllPostsFB s {}) now [R]).1,
            [R] ++ (getAllPostsFB s {}).filter
              (fun lp => [R].all (fun rp => rp.id != lp.id)))
        else ((mergeLoop s (getAllPostsFB s {}) now [R]).1, [R])) = _
      rw [hml]
      rfl
    refine ⟨by rw [hcyc], ?_⟩
    rw [hcyc]
    show (R :: (getAllPostsFB s {}).filter
        (fun lp => [R].all (fun rp => rp.id != lp.id))).find?
          (fun q => q.id == R.id) = some R
    exact List.find?_cons_of_pos _ (by simp)

/-- C2 witness: the newer remote post overwrites the local one, with
`updatedAt` restamped to the merge time. -/
theorem claim_C2_witness :
    (({ posts := [cexL], tags := [] } : Store).posts.countP
        (fun q => q.id == cexR.id) = 1) ∧
    (syncCycle { posts := [cexL], tags := [] } [cexR] 7).1.posts.find?
        (fun q => q.id == cexR.id) = some { cexR with updatedAt := 7 } :=
  ⟨by decide,
    ((claim_C2_amended { posts := [cexL], tags := [] } cexL cexR 7
      (by decide) (by decide)).1 (by decide)).1⟩

/-- C10 witness: with limit 0 and offset 5, the full filtered sorted
sequence comes back. -/
theorem claim_C10_witness :
    (({ limit := some 0 } : QueryOptions).limit = none ∨
      ({ limit := some 0 } : QueryOptions).limit = some 0) ∧
    getAllPostsFB wStore8 { limit := some 0, offset := some 5 }
      = sortFilter wStore8.posts { limit := some 0 } :=
  ⟨Or.inr rfl,
    claim_C10_no_limit wStore8 { limit := some 0 } (Or.inr rfl) (some 5)⟩

end Boardie
